import Mathlib

/-!
Verification development for the fers encrypted directory-synchronization
engine.  The Go sources are shallowly embedded: byte payloads are lists of
naturals, object keys and filesystem paths are lists of path segments
(the slash-separated form used throughout the Go code), fallible
operations return `Option`/`Except`, and the cooperative cancellation
context is a predicate on poll indices.  Randomness (the fresh GCM nonce
drawn in `Encrypt`) is passed explicitly as an argument.
-/

/-- Byte sequences (Go `[]byte`) are modelled as lists of naturals. -/
abbrev Bytes := List Nat

/-- GCM nonce size used by the Go standard library (`gcm.NonceSize()`). -/
def nonceSize : Nat := 12

/-- GCM authentication-tag size (`gcm.Overhead()`), 16 bytes. -/
def tagSize : Nat := 16

/-- Injective encoding of a byte list into a single natural, used by the
model of the GCM authentication tag. -/
def listEnc : Bytes → Nat
  | [] => 0
  | b :: bs => Nat.pair b (listEnc bs) + 1

/-- Model of SHA-256 key derivation (`sha256.Sum256([]byte(password))` in
`NewAESGCM` / `DeriveKeyFromPassword`).  SHA-256 lives in the Go standard
library, outside this repository; it is modelled as an injective
deterministic function of the passphrase, matching the spec's "deterministic
function of the passphrase" and its wrong-passphrase authentication-failure
property. -/
def deriveKey (password : String) : Bytes := password.data.map Char.toNat

/-- Constructor of the AES-GCM cipher (`NewAESGCM`); in the model a cipher
is identified with its derived key. -/
def NewAESGCM (password : String) : Bytes := deriveKey password

/-- Keystream pad for position `i` of the CTR-mode body of GCM.  Only
determinism in `(key, nonce, i)` matters for the embedded claims. -/
def ksPad (key nonce : Bytes) (i : Nat) : Nat := key.sum + nonce.sum + i

/-- CTR-style body transformation of the GCM model: byte `i` is XORed with
the keystream pad.  Involutive, so it serves as both encryption and
decryption of the body. -/
def xorStream (key nonce : Bytes) : Nat → Bytes → Bytes
  | _, [] => []
  | i, b :: bs => (b ^^^ ksPad key nonce i) :: xorStream key nonce (i + 1) bs

/-- Model of the 16-byte GCM authentication tag: the first tag byte is an
injective encoding of `(key, nonce, ciphertext body)`, the rest are zero.
Authentication succeeds exactly when the stored tag matches this
recomputation. -/
def tagBytes (key nonce body : Bytes) : Bytes :=
  Nat.pair (listEnc key) (Nat.pair (listEnc nonce) (listEnc body)) :: List.replicate (tagSize - 1) 0

/-- Model of `gcm.Seal(nil, nonce, plain, nil)` from the Go standard
library: authenticated ciphertext `body ∥ tag`. -/
def gcmSeal (key nonce plain : Bytes) : Bytes :=
  xorStream key nonce 0 plain ++ tagBytes key nonce (xorStream key nonce 0 plain)

/-- Model of `gcm.Open(nil, nonce, ct, nil)`: fails when the ciphertext is
shorter than the tag or when the recomputed tag differs from the stored
one; otherwise recovers the plaintext.  Failure carries no partial data. -/
def gcmOpen (key nonce ct : Bytes) : Option Bytes :=
  if ct.length < tagSize then none
  else
    if ct.drop (ct.length - tagSize) = tagBytes key nonce (ct.take (ct.length - tagSize)) then
      some (xorStream key nonce 0 (ct.take (ct.length - tagSize)))
    else none

/-- Embedding of `aesGCM.Encrypt` (pkg/crypto/crypto.go): the freshly drawn
random nonce is passed explicitly; the result is `nonce ∥ gcm.Seal(...)`,
that is `nonce ∥ ciphertext ∥ tag`. -/
def Encrypt (key nonce plain : Bytes) : Bytes :=
  nonce ++ gcmSeal key nonce plain

/-- Embedding of `aesGCM.Decrypt` (pkg/crypto/crypto.go): rejects inputs
shorter than the nonce size, then splits off the nonce and calls
`gcm.Open` on the remainder. -/
def Decrypt (key blob : Bytes) : Option Bytes :=
  if blob.length < nonceSize then none
  else gcmOpen key (blob.take nonceSize) (blob.drop nonceSize)

/-! Path model for the Path Safety Guard (`DeleteLocalFile`).  A path is a
list of segments plus an absolute flag; `filepath.Clean`, `filepath.Join`
and `filepath.Rel` are embedded at segment granularity. -/

def emptySeg : String := ""

def dotSeg : String := "."

def dotdotSeg : String := ".."

/-- Model of `strings.HasPrefix` by structural comparison of the
character lists (Go compares raw bytes). -/
def strStarts (s pre : String) : Bool := pre.data.isPrefixOf s.data

/-- Parsed path: `absolute` records a leading separator, `segs` the
slash-separated segments. -/
structure GoPath where
  absolute : Bool
  segs : List String
deriving DecidableEq

/-- Worker for the lexical `filepath.Clean` algorithm; the accumulator
holds the already-cleaned segments in reverse order. -/
def cleanRev (isAbs : Bool) : List String → List String → List String
  | acc, [] => acc
  | acc, s :: rest =>
    if s = emptySeg ∨ s = dotSeg then cleanRev isAbs acc rest
    else if s = dotdotSeg then
      match acc with
      | [] => if isAbs then cleanRev isAbs [] rest else cleanRev isAbs [dotdotSeg] rest
      | a :: as =>
        if a = dotdotSeg then cleanRev isAbs (dotdotSeg :: a :: as) rest
        else cleanRev isAbs as rest
    else cleanRev isAbs (s :: acc) rest

/-- Model of `filepath.Clean` on the segment list of a path. -/
def cleanSegs (isAbs : Bool) (l : List String) : List String :=
  (cleanRev isAbs [] l).reverse

/-- Model of `filepath.Join(workingDir, relativePath)`: Go joins the two
strings with a separator and cleans the result, so an absolute second
argument lands below `workingDir` rather than replacing it. -/
def joinPath (workingDir : List String) (p : GoPath) : List String :=
  cleanSegs true (workingDir ++ p.segs)

/-- Model of `filepath.Rel(base, target)` on cleaned absolute segment
lists; the empty result stands for Go's `"."`. -/
def relSegs : List String → List String → List String
  | [], t => t
  | b, [] => List.replicate b.length dotdotSeg
  | s :: bs, u :: ts =>
    if s = u then relSegs bs ts
    else List.replicate (bs.length + 1) dotdotSeg ++ (u :: ts)

/-- Model of `strings.HasPrefix(relPath, "..")` on the segment form of the
relative path: the joined string starts with `..` exactly when its first
segment does. -/
def startsDotDot (l : List String) : Bool :=
  match l with
  | [] => false
  | s :: _ => strStarts s dotdotSeg

/-- Local filesystem for the delete model: finitely many files keyed by
absolute cleaned segment path. -/
abbrev AbsFS := List (List String × Bytes)

/-- Model of `os.Remove`: deletes the file when present, errors when
absent. -/
def osRemove (fs : AbsFS) (p : List String) : Option AbsFS :=
  if fs.any (fun e => e.1 == p) then some (fs.filter (fun e => !(e.1 == p))) else none

/-- Error taxonomy of `DeleteLocalFile`: the Path Safety Guard violation
(`"file is outside working directory"`) versus an `os.Remove` failure. -/
inductive DeleteError
  | securityError
  | ioError
deriving DecidableEq

/-- Embedding of `FileManager.DeleteLocalFile` (src/unnamed/part_002):
join the relative path onto the working directory, clean, compute the
relative path back from the working root, reject when it starts with
`..`, otherwise remove the joined path. -/
def DeleteLocalFile (workingDir : List String) (fs : AbsFS) (relativePath : GoPath) :
    Except DeleteError AbsFS :=
  if startsDotDot (relSegs (cleanSegs true workingDir) (joinPath workingDir relativePath)) then
    .error .securityError
  else
    match osRemove fs (joinPath workingDir relativePath) with
    | some fs' => .ok fs'
    | none => .error .ioError

/-! Object store and sync-engine model (pkg/storage/client.go,
pkg/dir/dir.go, pkg/dir/filemanager.go, src/unnamed/part_002). -/

/-- Object keys: the slash-separated relative path, kept in segment form. -/
abbrev ObjKey := List String

/-- Local file tree of the sync engine: files keyed by their path relative
to the working directory (in segment form), as enumerated by
`filepath.Walk`. -/
abbrev LocalFS := List (ObjKey × Bytes)

/-- Remote object store as seen through the `storage.Client` interface.
`failUpload`/`failDownload` model per-key backend IO failures permitted by
the contract. -/
structure Store where
  objects : List (ObjKey × Bytes)
  failUpload : ObjKey → Bool
  failDownload : ObjKey → Bool

/-- Model of `storage.List("")`: every stored key. -/
def storeList (s : Store) : List ObjKey := s.objects.map Prod.fst

/-- Model of `storage.Download(key)`: fails on an injected backend error
or an absent key. -/
def storeDownload (s : Store) (k : ObjKey) : Option Bytes :=
  if s.failDownload k then none
  else (s.objects.find? (fun e => e.1 == k)).map Prod.snd

/-- Model of `storage.Upload(key, data)`: stores or overwrites, unless the
backend fails. -/
def storeUpload (s : Store) (k : ObjKey) (d : Bytes) : Option Store :=
  if s.failUpload k then none
  else some { s with objects := s.objects.filter (fun e => !(e.1 == k)) ++ [(k, d)] }

/-- Overwriting write of a decrypted download into the local tree
(`os.MkdirAll` + `os.WriteFile`). -/
def fsWrite (fs : LocalFS) (k : ObjKey) (d : Bytes) : LocalFS :=
  fs.filter (fun e => !(e.1 == k)) ++ [(k, d)]

/-- Local read (`os.ReadFile`) by relative key. -/
def fsRead (fs : LocalFS) (k : ObjKey) : Option Bytes :=
  (fs.find? (fun e => e.1 == k)).map Prod.snd

/-- Embedding of `dir.List` (pkg/dir/dir.go): the one-level listing of the
working directory — the set of top-level names (files and directories),
hidden dot-entries excluded. -/
def dirListTop (fs : LocalFS) : List String :=
  (fs.map (fun e => e.1.headD emptySeg)).filter (fun n => !(strStarts n dotSeg))

/-- Entry visited by `filepath.Walk`: its path relative to the walk root
and whether it is a directory (`info.IsDir()`). -/
abbrev WalkEntry := ObjKey × Bool

/-- Entries visited by `filepath.Walk` over the working directory: the
root directory itself first, then every regular file in walk order. -/
def walkEntries (fs : LocalFS) : List WalkEntry :=
  ([], true) :: fs.map (fun e => (e.1, false))

/-- Per-file error taxonomy of the single-item transfer operations. -/
inductive FileError
  | ioError
  | cryptoError
  | storeError
deriving DecidableEq

/-- Embedding of `FileManager.DownloadAndDecryptFile`: download the blob,
decrypt it, create parents and write the local file. -/
def DownloadAndDecryptFile (key : Bytes) (store : Store) (fs : LocalFS) (remotePath : ObjKey) :
    Except FileError LocalFS :=
  match storeDownload store remotePath with
  | none => .error .storeError
  | some blob =>
    match Decrypt key blob with
    | none => .error .cryptoError
    | some plain => .ok (fsWrite fs remotePath plain)

/-- Embedding of `FileManager.EncryptAndUploadFile`: read the file,
encrypt it under the given fresh nonce, upload the blob under the
slash-normalized relative path. -/
def EncryptAndUploadFile (key nonce : Bytes) (store : Store) (fs : LocalFS) (path : ObjKey) :
    Except FileError Store :=
  match fsRead fs path with
  | none => .error .ioError
  | some data =>
    match storeUpload store path (Encrypt key nonce data) with
    | none => .error .storeError
    | some store' => .ok store'

/-- Batch-operation error: only context cancellation aborts a batch. -/
inductive SyncError
  | cancelled
deriving DecidableEq

/-- Errors of `EncryptAndUploadDirectory`, which is fail-fast: either the
cancelled context or the first per-file error. -/
inductive UploadDirError
  | cancelled
  | fileError (e : FileError)
deriving DecidableEq

/-- Walk loop of `FileManager.EncryptAndUploadDirectory`
(pkg/dir/filemanager.go lines 66-89): the context is polled before each
entry, the first per-file error aborts the whole walk; `rnd i` is the
fresh nonce drawn for the i-th call. -/
def EncryptAndUploadDirectoryLoop (key : Bytes) (ctx : Nat → Bool) (rnd : Nat → Bytes)
    (fs : LocalFS) : Nat → List WalkEntry → Store → Except UploadDirError Unit × Store
  | _, [], st => (.ok (), st)
  | i, entry :: rest, st =>
    if ctx i then (.error .cancelled, st)
    else if entry.2 then EncryptAndUploadDirectoryLoop key ctx rnd fs (i + 1) rest st
    else
      match EncryptAndUploadFile key (rnd i) st fs entry.1 with
      | .error e => (.error (.fileError e), st)
      | .ok st' => EncryptAndUploadDirectoryLoop key ctx rnd fs (i + 1) rest st'

/-- Embedding of `FileManager.EncryptAndUploadDirectory` applied to the
working directory: walks the root directory entry and every regular file
of the local tree in walk order; the context is polled at each visited
entry, directories themselves are not uploaded. -/
def EncryptAndUploadDirectory (key : Bytes) (ctx : Nat → Bool) (rnd : Nat → Bytes)
    (store : Store) (fs : LocalFS) : Except UploadDirError Unit × Store :=
  EncryptAndUploadDirectoryLoop key ctx rnd fs 0 (walkEntries fs) store

/-- Loop of `FileManager.SyncDownload` in pkg/dir/filemanager.go (lines
117-149): presence is decided by the remote key's top-level segment
(`strings.Split(remotePath, "/")[0]`) against the one-level local listing;
a failing key is logged (third component) and the loop continues; the
context is polled before each key. -/
def syncDownloadLoop (key : Bytes) (ctx : Nat → Bool) (store : Store) (localSet : List String) :
    Nat → List ObjKey → LocalFS → Except SyncError Unit × LocalFS × List ObjKey
  | _, [], fs => (.ok (), fs, [])
  | i, remotePath :: rest, fs =>
    if ctx i then (.error .cancelled, fs, [])
    else
      if localSet.contains (remotePath.headD emptySeg) then
        syncDownloadLoop key ctx store localSet (i + 1) rest fs
      else
        match DownloadAndDecryptFile key store fs remotePath with
        | .ok fs' => syncDownloadLoop key ctx store localSet (i + 1) rest fs'
        | .error _ =>
          let t := syncDownloadLoop key ctx store localSet (i + 1) rest fs
          (t.1, t.2.1, remotePath :: t.2.2)

/-- Embedding of `FileManager.SyncDownload` (pkg/dir/filemanager.go): the
local set is `dir.List(workingDir)`, the remote set is `List("")`. -/
def SyncDownload (key : Bytes) (ctx : Nat → Bool) (store : Store) (fs : LocalFS) :
    Except SyncError Unit × LocalFS × List ObjKey :=
  syncDownloadLoop key ctx store (dirListTop fs) 0 (storeList store) fs

/-- Loop of the `SyncDownload` variant of src/unnamed/part_002 (lines
117-161): presence is decided by the full relative path against the set
of local file paths collected by `filepath.Walk`. -/
def syncDownloadFullLoop (key : Bytes) (ctx : Nat → Bool) (store : Store)
    (localFileSet : List ObjKey) :
    Nat → List ObjKey → LocalFS → Except SyncError Unit × LocalFS × List ObjKey
  | _, [], fs => (.ok (), fs, [])
  | i, remotePath :: rest, fs =>
    if ctx i then (.error .cancelled, fs, [])
    else
      if localFileSet.contains remotePath then
        syncDownloadFullLoop key ctx store localFileSet (i + 1) rest fs
      else
        match DownloadAndDecryptFile key store fs remotePath with
        | .ok fs' => syncDownloadFullLoop key ctx store localFileSet (i + 1) rest fs'
        | .error _ =>
          let t := syncDownloadFullLoop key ctx store localFileSet (i + 1) rest fs
          (t.1, t.2.1, remotePath :: t.2.2)

/-- Embedding of the `SyncDownload` variant of src/unnamed/part_002: the
local set holds full relative slash paths of every local file. -/
def SyncDownloadFull (key : Bytes) (ctx : Nat → Bool) (store : Store) (fs : LocalFS) :
    Except SyncError Unit × LocalFS × List ObjKey :=
  syncDownloadFullLoop key ctx store (fs.map Prod.fst) 0 (storeList store) fs

/-- Remote key set built by `SyncUpload` (both variants): every listed key
plus, for each listed key, its top-level segment
(`remoteSet[strings.Split(file, "/")[0]] = true`). -/
def remoteSetWithTops (s : Store) : List ObjKey :=
  storeList s ++ (storeList s).map (fun k => [k.headD emptySeg])

/-- Walk loop of `FileManager.SyncUpload` (pkg/dir/filemanager.go lines
152-193, identical in src/unnamed/part_002): uploads a local file when its
relative slash path is absent from the remote set; a failing upload is
logged (third component) and the walk continues; the context is polled
before each entry. -/
def syncUploadLoop (key : Bytes) (ctx : Nat → Bool) (rnd : Nat → Bytes) (fs : LocalFS)
    (remoteSet : List ObjKey) :
    Nat → List WalkEntry → Store → Except SyncError Unit × Store × List ObjKey
  | _, [], st => (.ok (), st, [])
  | i, entry :: rest, st =>
    if ctx i then (.error .cancelled, st, [])
    else if entry.2 then syncUploadLoop key ctx rnd fs remoteSet (i + 1) rest st
    else
      if remoteSet.contains entry.1 then syncUploadLoop key ctx rnd fs remoteSet (i + 1) rest st
      else
        match EncryptAndUploadFile key (rnd i) st fs entry.1 with
        | .ok st' => syncUploadLoop key ctx rnd fs remoteSet (i + 1) rest st'
        | .error _ =>
          let t := syncUploadLoop key ctx rnd fs remoteSet (i + 1) rest st
          (t.1, t.2.1, entry.1 :: t.2.2)

/-- Embedding of `FileManager.SyncUpload`: the remote set is computed
once, then the local tree is walked. -/
def SyncUpload (key : Bytes) (ctx : Nat → Bool) (rnd : Nat → Bytes) (store : Store)
    (fs : LocalFS) : Except SyncError Unit × Store × List ObjKey :=
  syncUploadLoop key ctx rnd fs (remoteSetWithTops store) 0 (walkEntries fs) store

/-! Storage backends (pkg/storage/client.go): the filesystem-rooted mock
and the cloud client.  Only the state-relevant behaviour of
`Upload`/`Download`/`Delete` is embedded. -/

/-- State of the `ossMock` backend: the files stored under its base
directory, keyed by relative slash path. -/
abbrev MockState := List (ObjKey × Bytes)

/-- Model of `ossMock.Upload`: `MkdirAll` + `WriteFile` under
`keyPath(key)`, overwriting. -/
def ossMockUpload (m : MockState) (k : ObjKey) (d : Bytes) : MockState :=
  m.filter (fun e => !(e.1 == k)) ++ [(k, d)]

/-- Model of `ossMock.Download`: `ReadFile` of `keyPath(key)`. -/
def ossMockDownload (m : MockState) (k : ObjKey) : Option Bytes :=
  (m.find? (fun e => e.1 == k)).map Prod.snd

/-- Embedding of `ossMock.Delete` (pkg/storage/client.go lines 433-435):
`return nil`, touching nothing. -/
def ossMockDelete (m : MockState) (_ : ObjKey) : Except FileError Unit × MockState :=
  (.ok (), m)

/-- State of the cloud `ossClient` backend: bucket contents keyed by full
object path (the configured remote work directory followed by the key). -/
abbrev BucketState := List (ObjKey × Bytes)

/-- Model of `ossClient.getFullPath`: prefix the key with the configured
remote work directory. -/
def getFullPath (workDir : List String) (k : ObjKey) : ObjKey := workDir ++ k

/-- Model of `ossClient.Upload`: `PutObject` under the full path. -/
def ossClientUpload (workDir : List String) (b : BucketState) (k : ObjKey) (d : Bytes) :
    BucketState :=
  b.filter (fun e => !(e.1 == getFullPath workDir k)) ++ [(getFullPath workDir k, d)]

/-- Model of `ossClient.Download`: `GetObject` under the full path. -/
def ossClientDownload (workDir : List String) (b : BucketState) (k : ObjKey) : Option Bytes :=
  (b.find? (fun e => e.1 == getFullPath workDir k)).map Prod.snd

/-- Embedding of `ossClient.Delete` (pkg/storage/client.go lines 592-594):
`return nil`, touching nothing. -/
def ossClientDelete (_ : List String) (b : BucketState) (_ : ObjKey) :
    Except FileError Unit × BucketState :=
  (.ok (), b)

/-! Concrete strings used by witnesses and counterexamples. -/

def pwA : String := "pw"

def pwB : String := "other"

def segWork : String := "work"

def segEtc : String := "etc"

def segPasswd : String := "passwd"

def segOutside : String := "outside.txt"

def segDir : String := "dir"

def segA : String := "a.txt"

def segB : String := "b.txt"

def segSub : String := "b"

/-! Helper lemmas about the cipher model. -/

theorem xorStream_length (key nonce : Bytes) (i : Nat) (bs : Bytes) :
    (xorStream key nonce i bs).length = bs.length := by
  induction bs generalizing i with
  | nil => rfl
  | cons b bs ih => simp [xorStream, ih]

theorem xorStream_xorStream (key nonce : Bytes) (i : Nat) (bs : Bytes) :
    xorStream key nonce i (xorStream key nonce i bs) = bs := by
  induction bs generalizing i with
  | nil => rfl
  | cons b bs ih => simp [xorStream, ih, Nat.xor_cancel_right]

theorem tagBytes_length (key nonce body : Bytes) : (tagBytes key nonce body).length = tagSize := by
  simp [tagBytes, tagSize]

theorem listEnc_inj {l1 l2 : Bytes} (h : listEnc l1 = listEnc l2) : l1 = l2 := by
  induction l1 generalizing l2 with
  | nil =>
    cases l2 with
    | nil => rfl
    | cons b bs => exact absurd h.symm (by simp [listEnc])
  | cons a as ih =>
    cases l2 with
    | nil => exact absurd h (by simp [listEnc])
    | cons b bs =>
      simp only [listEnc, Nat.add_right_cancel_iff] at h
      have h2 := congrArg Nat.unpair h
      simp only [Nat.unpair_pair, Prod.mk.injEq] at h2
      rw [h2.1, ih h2.2]

theorem tagBytes_inj {key1 nonce1 body1 key2 nonce2 body2 : Bytes}
    (h : tagBytes key1 nonce1 body1 = tagBytes key2 nonce2 body2) :
    key1 = key2 ∧ nonce1 = nonce2 ∧ body1 = body2 := by
  have hh : Nat.pair (listEnc key1) (Nat.pair (listEnc nonce1) (listEnc body1)) =
      Nat.pair (listEnc key2) (Nat.pair (listEnc nonce2) (listEnc body2)) := by
    simpa [tagBytes] using h
  have h1 := congrArg Nat.unpair hh
  simp only [Nat.unpair_pair, Prod.mk.injEq] at h1
  have h2 := congrArg Nat.unpair h1.2
  simp only [Nat.unpair_pair, Prod.mk.injEq] at h2
  exact ⟨listEnc_inj h1.1, listEnc_inj h2.1, listEnc_inj h2.2⟩

theorem gcmSeal_length (key nonce plain : Bytes) :
    (gcmSeal key nonce plain).length = plain.length + tagSize := by
  simp [gcmSeal, tagBytes_length, xorStream_length]

theorem gcmOpen_gcmSeal (key nonce plain : Bytes) :
    gcmOpen key nonce (gcmSeal key nonce plain) = some plain := by
  have hbl : (xorStream key nonce 0 plain).length = plain.length := xorStream_length key nonce 0 plain
  have hsl : (gcmSeal key nonce plain).length = plain.length + tagSize := gcmSeal_length key nonce plain
  unfold gcmOpen
  rw [if_neg (by omega)]
  have hsub : (gcmSeal key nonce plain).length - tagSize = (xorStream key nonce 0 plain).length := by
    omega
  rw [hsub]
  unfold gcmSeal
  rw [List.take_left, List.drop_left, if_pos rfl, xorStream_xorStream]

theorem encrypt_length (key nonce plain : Bytes) :
    (Encrypt key nonce plain).length = nonce.length + plain.length + tagSize := by
  simp [Encrypt, gcmSeal_length]
  omega

theorem decrypt_encrypt (key nonce plain : Bytes) (h : nonce.length = nonceSize) :
    Decrypt key (Encrypt key nonce plain) = some plain := by
  unfold Decrypt
  have hne : ¬ ((Encrypt key nonce plain).length < nonceSize) := by
    rw [encrypt_length]
    omega
  rw [if_neg hne]
  unfold Encrypt
  rw [List.take_left' h, List.drop_left' h]
  exact gcmOpen_gcmSeal key nonce plain

theorem decrypt_some_length {key blob p : Bytes} (h : Decrypt key blob = some p) :
    nonceSize ≤ blob.length := by
  unfold Decrypt at h
  by_cases hlt : blob.length < nonceSize
  · rw [if_pos hlt] at h
    exact absurd h (by simp)
  · omega

theorem decrypt_eq_some_iff (key blob p : Bytes) :
    Decrypt key blob = some p ↔ blob = Encrypt key (blob.take nonceSize) p := by
  constructor
  · intro h
    have hlen := decrypt_some_length h
    unfold Decrypt at h
    rw [if_neg (by omega)] at h
    unfold gcmOpen at h
    by_cases h2 : (blob.drop nonceSize).length < tagSize
    · rw [if_pos h2] at h
      exact absurd h (by simp)
    rw [if_neg h2] at h
    by_cases h3 : (blob.drop nonceSize).drop ((blob.drop nonceSize).length - tagSize) =
        tagBytes key (blob.take nonceSize)
          ((blob.drop nonceSize).take ((blob.drop nonceSize).length - tagSize))
    · rw [if_pos h3] at h
      have hp : xorStream key (blob.take nonceSize) 0
          ((blob.drop nonceSize).take ((blob.drop nonceSize).length - tagSize)) = p := by
        injection h
      have hb : xorStream key (blob.take nonceSize) 0 p =
          (blob.drop nonceSize).take ((blob.drop nonceSize).length - tagSize) := by
        rw [← hp, xorStream_xorStream]
      calc blob = blob.take nonceSize ++ blob.drop nonceSize :=
            (List.take_append_drop nonceSize blob).symm
        _ = Encrypt key (blob.take nonceSize) p := by
            conv_lhs =>
              rw [← List.take_append_drop ((blob.drop nonceSize).length - tagSize)
                (blob.drop nonceSize)]
            rw [h3, ← hb]
            rfl
    · rw [if_neg h3] at h
      exact absurd h (by simp)
  · intro h
    have hlen : nonceSize ≤ blob.length := by
      by_contra hc
      push_neg at hc
      have hc2 := congrArg List.length h
      rw [encrypt_length, List.length_take] at hc2
      simp only [tagSize] at hc2
      omega
    have htake : (blob.take nonceSize).length = nonceSize := by
      rw [List.length_take]
      omega
    conv_lhs => rw [h]
    exact decrypt_encrypt key (blob.take nonceSize) p htake

theorem find?_assoc_update (m : List (ObjKey × Bytes)) (k : ObjKey) (d : Bytes) :
    (m.filter (fun e => !(e.1 == k)) ++ [(k, d)]).find? (fun e => e.1 == k) = some (k, d) := by
  induction m with
  | nil => simp [List.find?]
  | cons a as ih =>
    by_cases hk : a.1 = k
    · simp only [List.filter, hk, beq_self_eq_true, Bool.not_true]
      exact ih
    · have hb : (a.1 == k) = false := beq_eq_false_iff_ne.mpr hk
      simp only [List.filter, hb, Bool.not_false, List.cons_append, List.find?, hb]
      exact ih

theorem take_set_of_le (l : Bytes) (i c n : Nat) (h : n ≤ i) :
    (l.set i c).take n = l.take n := by
  induction l generalizing n i with
  | nil => simp
  | cons a as ih =>
    cases i with
    | zero =>
      cases n with
      | zero => simp
      | succ m => omega
    | succ j =>
      cases n with
      | zero => simp
      | succ m =>
        simp only [List.set, List.take]
        rw [ih j m (by omega)]

theorem drop_set_of_lt (l : Bytes) (i c n : Nat) (h : i < n) :
    (l.set i c).drop n = l.drop n := by
  induction l generalizing n i with
  | nil => simp
  | cons a as ih =>
    cases i with
    | zero =>
      cases n with
      | zero => omega
      | succ m => simp
    | succ j =>
      cases n with
      | zero => omega
      | succ m =>
        simp only [List.set, List.drop]
        exact ih j m (by omega)

theorem charToNat_inj : Function.Injective Char.toNat := by
  intro a b h
  have h2 := congrArg Char.ofNat h
  rwa [Char.ofNat_toNat, Char.ofNat_toNat] at h2

theorem deriveKey_inj {p1 p2 : String} (h : deriveKey p1 = deriveKey p2) : p1 = p2 := by
  unfold deriveKey at h
  exact String.ext (List.map_injective_iff.mpr charToNat_inj h)

theorem encrypt_take_nonce (key nonce plain : Bytes) (hn : nonce.length = nonceSize) :
    (Encrypt key nonce plain).take nonceSize = nonce := by
  rw [Encrypt, List.take_left' hn]

theorem decrypt_wrong_key (key1 key2 nonce plain : Bytes) (hn : nonce.length = nonceSize)
    (hk : key1 ≠ key2) : Decrypt key2 (Encrypt key1 nonce plain) = none := by
  cases hsome : Decrypt key2 (Encrypt key1 nonce plain) with
  | none => rfl
  | some q =>
    exfalso
    rw [decrypt_eq_some_iff, encrypt_take_nonce key1 nonce plain hn] at hsome
    have hseal : gcmSeal key1 nonce plain = gcmSeal key2 nonce q :=
      (List.append_inj hsome rfl).2
    have hql : plain.length = q.length := by
      have hl := congrArg List.length hseal
      rw [gcmSeal_length, gcmSeal_length] at hl
      omega
    have hbl : (xorStream key1 nonce 0 plain).length = (xorStream key2 nonce 0 q).length := by
      rw [xorStream_length, xorStream_length, hql]
    have htag := (List.append_inj hseal hbl).2
    exact hk (tagBytes_inj htag).1

theorem valid_shape_tag {key X B T q : Bytes} (hT : T.length = tagSize)
    (heq : X ++ (B ++ T) = Encrypt key X q) : T = tagBytes key X B := by
  have heq2 : B ++ T = gcmSeal key X q := (List.append_inj heq rfl).2
  have heq3 : B ++ T = xorStream key X 0 q ++ tagBytes key X (xorStream key X 0 q) := heq2
  have hL : B.length = (xorStream key X 0 q).length := by
    have hl := congrArg List.length heq3
    rw [List.length_append, List.length_append, hT, tagBytes_length] at hl
    omega
  obtain ⟨hB, hTeq⟩ := List.append_inj heq3 hL
  rw [hTeq, ← hB]

theorem set_self_of_eq {l : Bytes} {j c : Nat} (hj : j < l.length) (h : l = l.set j c) :
    c = l.get ⟨j, hj⟩ := by
  have hlen : j < (l.set j c).length := by
    rw [List.length_set]
    exact hj
  have h3 := congrArg (fun m : Bytes => m[j]?) h
  simp only at h3
  rw [List.getElem?_eq_getElem hj, List.getElem?_eq_getElem hlen,
    List.getElem_set_self hlen] at h3
  rw [List.get_eq_getElem]
  exact (Option.some.inj h3).symm

theorem decrypt_tamper (key nonce plain : Bytes) (hn : nonce.length = nonceSize) (i c : Nat)
    (hi : i < (Encrypt key nonce plain).length)
    (hc : c ≠ (Encrypt key nonce plain).get ⟨i, hi⟩) :
    Decrypt key ((Encrypt key nonce plain).set i c) = none := by
  cases hsome : Decrypt key ((Encrypt key nonce plain).set i c) with
  | none => rfl
  | some q =>
    exfalso
    rw [decrypt_eq_some_iff] at hsome
    have hsome2 : (nonce ++ (xorStream key nonce 0 plain ++
        tagBytes key nonce (xorStream key nonce 0 plain))).set i c =
        Encrypt key (((nonce ++ (xorStream key nonce 0 plain ++
          tagBytes key nonce (xorStream key nonce 0 plain))).set i c).take nonceSize) q := hsome
    have hi2 : i < (nonce ++ (xorStream key nonce 0 plain ++
        tagBytes key nonce (xorStream key nonce 0 plain))).length := hi
    have hc2 : c ≠ (nonce ++ (xorStream key nonce 0 plain ++
        tagBytes key nonce (xorStream key nonce 0 plain))).get ⟨i, hi2⟩ := hc
    revert hsome2 hi2 hc2
    generalize xorStream key nonce 0 plain = body
    intro hsome2 hi2 hc2
    revert hsome2 hi2 hc2
    generalize htg : tagBytes key nonce body = tg
    intro hsome2 hi2 hc2
    have htgl : tg.length = tagSize := by
      rw [← htg]
      exact tagBytes_length key nonce body
    have hifull : i < nonce.length + (body.length + tg.length) := by
      have h0 := hi2
      rw [List.length_append, List.length_append] at h0
      omega
    rcases Nat.lt_or_ge i nonce.length with h1 | h1
    · -- the tampered byte lies in the nonce region
      have hs : (nonce ++ (body ++ tg)).set i c = (nonce.set i c) ++ (body ++ tg) :=
        List.set_append_left i c h1
      rw [hs] at hsome2
      rw [List.take_left' (show (nonce.set i c).length = nonceSize by
        rw [List.length_set]; exact hn)] at hsome2
      have hT := valid_shape_tag htgl hsome2
      have hinj := tagBytes_inj (htg.trans hT)
      have hceq : c = nonce.get ⟨i, h1⟩ := set_self_of_eq h1 hinj.2.1
      apply hc2
      rw [List.get_eq_getElem] at hceq
      rw [List.get_eq_getElem, List.getElem_append_left h1]
      exact hceq
    rcases Nat.lt_or_ge (i - nonce.length) body.length with h2 | h2
    · -- the tampered byte lies in the ciphertext body region
      have hs : (nonce ++ (body ++ tg)).set i c =
          nonce ++ ((body.set (i - nonce.length) c) ++ tg) := by
        rw [List.set_append_right i c h1, List.set_append_left (i - nonce.length) c h2]
      rw [hs] at hsome2
      rw [List.take_left' hn] at hsome2
      have hT := valid_shape_tag htgl hsome2
      have hinj := tagBytes_inj (htg.trans hT)
      have hceq : c = body.get ⟨i - nonce.length, h2⟩ := set_self_of_eq h2 hinj.2.2
      apply hc2
      rw [List.get_eq_getElem] at hceq
      rw [List.get_eq_getElem, List.getElem_append_right h1, List.getElem_append_left h2]
      exact hceq
    · -- the tampered byte lies in the tag region
      have hs : (nonce ++ (body ++ tg)).set i c =
          nonce ++ (body ++ tg.set (i - nonce.length - body.length) c) := by
        rw [List.set_append_right i c h1, List.set_append_right (i - nonce.length) c h2]
      rw [hs] at hsome2
      rw [List.take_left' hn] at hsome2
      have hT := valid_shape_tag (by rw [List.length_set]; exact htgl) hsome2
      have hj : i - nonce.length - body.length < tg.length := by
        omega
      have hceq : c = tg.get ⟨i - nonce.length - body.length, hj⟩ :=
        set_self_of_eq hj (hT.trans htg).symm
      apply hc2
      rw [List.get_eq_getElem] at hceq
      rw [List.get_eq_getElem, List.getElem_append_right h1, List.getElem_append_right h2]
      exact hceq

/-- C3: for every byte sequence, including the empty one, decrypting the
result of encrypting it under the same CipherSuite (same derived key)
returns exactly the original plaintext. -/
theorem cipher_roundtrip (password : String) (nonce plain : Bytes)
    (h : nonce.length = nonceSize) :
    Decrypt (NewAESGCM password) (Encrypt (NewAESGCM password) nonce plain) = some plain :=
  decrypt_encrypt (NewAESGCM password) nonce plain h

/-- Witness for C3 at a concrete passphrase, nonce and the empty
plaintext. -/
theorem cipher_roundtrip_witness :
    Decrypt (NewAESGCM pwA) (Encrypt (NewAESGCM pwA) (List.replicate 12 0) []) = some [] :=
  cipher_roundtrip pwA (List.replicate 12 0) [] (by decide)

/-- C4: Decrypt fails exactly on inputs shorter than the nonce size
(including the empty input) or on authentication failure — a key derived
from a different passphrase, or any single tampered byte — and a
successful decryption happens exactly on well-formed encryptions; failures
return `none`, never partial plaintext. -/
theorem decrypt_failure_characterization :
    (∀ key blob : Bytes, blob.length < nonceSize → Decrypt key blob = none) ∧
    (∀ (p1 p2 : String) (nonce plain : Bytes), p1 ≠ p2 → nonce.length = nonceSize →
      Decrypt (NewAESGCM p2) (Encrypt (NewAESGCM p1) nonce plain) = none) ∧
    (∀ (key nonce plain : Bytes) (i c : Nat) (hn : nonce.length = nonceSize)
      (hi : i < (Encrypt key nonce plain).length),
      c ≠ (Encrypt key nonce plain).get ⟨i, hi⟩ →
      Decrypt key ((Encrypt key nonce plain).set i c) = none) ∧
    (∀ key blob : Bytes,
      (∃ p, Decrypt key blob = some p) ↔ ∃ p, blob = Encrypt key (blob.take nonceSize) p) := by
  refine ⟨?_, ?_, ?_, ?_⟩
  · intro key blob h
    unfold Decrypt
    rw [if_pos h]
  · intro p1 p2 nonce plain hp hn
    apply decrypt_wrong_key (NewAESGCM p1) (NewAESGCM p2) nonce plain hn
    intro hk
    exact hp (deriveKey_inj hk)
  · intro key nonce plain i c hn hi hc
    exact decrypt_tamper key nonce plain hn i c hi hc
  · intro key blob
    constructor
    · rintro ⟨p, hp⟩
      exact ⟨p, (decrypt_eq_some_iff key blob p).mp hp⟩
    · rintro ⟨p, hp⟩
      exact ⟨p, (decrypt_eq_some_iff key blob p).mpr hp⟩

/-- Witness for C4: the empty blob fails, a blob encrypted under one
passphrase fails to decrypt under another, and flipping the first byte of
a valid blob makes decryption fail. -/
theorem decrypt_failure_characterization_witness :
    Decrypt (NewAESGCM pwA) [] = none ∧
    Decrypt (NewAESGCM pwB) (Encrypt (NewAESGCM pwA) (List.replicate 12 0) [3]) = none ∧
    Decrypt (NewAESGCM pwA) ((Encrypt (NewAESGCM pwA) (List.replicate 12 0) [3]).set 0 1) = none :=
  ⟨decrypt_failure_characterization.1 (NewAESGCM pwA) [] (by decide),
   decrypt_failure_characterization.2.1 pwA pwB (List.replicate 12 0) [3] (by decide) (by decide),
   decrypt_failure_characterization.2.2.1 (NewAESGCM pwA) (List.replicate 12 0) [3] 0 1
     (by decide) (by decide) (by decide)⟩

/-- C8: every blob produced by Encrypt is exactly nonce(12) followed by the
ciphertext and the 16-byte tag — the length is the plaintext length plus
28, the first 12 bytes are the fresh nonce — and every blob accepted by
Decrypt is at least nonce-sized. -/
theorem encrypt_wire_format (key nonce plain : Bytes) (h : nonce.length = nonceSize) :
    (Encrypt key nonce plain).length = plain.length + (nonceSize + tagSize) ∧
    (Encrypt key nonce plain).take nonceSize = nonce ∧
    (∀ blob q : Bytes, Decrypt key blob = some q → nonceSize ≤ blob.length) := by
  refine ⟨?_, encrypt_take_nonce key nonce plain h, fun blob q hq => decrypt_some_length hq⟩
  rw [encrypt_length, h]
  omega

/-- Witness for C8 at a concrete key, nonce and two-byte plaintext. -/
theorem encrypt_wire_format_witness :
    (Encrypt (NewAESGCM pwA) (List.replicate 12 0) [1, 2]).take nonceSize =
      List.replicate 12 0 :=
  (encrypt_wire_format (NewAESGCM pwA) (List.replicate 12 0) [1, 2] (by decide)).2.1

/-- C9: under the same key, encrypting the same plaintext with two
distinct freshly drawn nonces yields different byte sequences. -/
theorem encrypt_nondeterministic (key plain n1 n2 : Bytes) (h1 : n1.length = nonceSize)
    (h2 : n2.length = nonceSize) (hne : n1 ≠ n2) :
    Encrypt key n1 plain ≠ Encrypt key n2 plain := by
  intro h
  apply hne
  have h3 := congrArg (List.take nonceSize) h
  rwa [encrypt_take_nonce key n1 plain h1, encrypt_take_nonce key n2 plain h2] at h3

/-- Witness for C9 on a non-empty plaintext and two concrete distinct
nonces. -/
theorem encrypt_nondeterministic_witness :
    Encrypt (NewAESGCM pwA) (List.replicate 12 0) [7] ≠
      Encrypt (NewAESGCM pwA) (1 :: List.replicate 11 0) [7] :=
  encrypt_nondeterministic (NewAESGCM pwA) [7] (List.replicate 12 0) (1 :: List.replicate 11 0)
    (by decide) (by decide) (by decide)

/-- C10: Delete is a pure no-op in both storage backends — it returns nil
and leaves the state unchanged, so a download after upload-then-delete
still returns the uploaded bytes. -/
theorem delete_is_noop :
    (∀ (m : MockState) (k : ObjKey), ossMockDelete m k = (.ok (), m)) ∧
    (∀ (w : List String) (b : BucketState) (k : ObjKey), ossClientDelete w b k = (.ok (), b)) ∧
    (∀ (m : MockState) (k : ObjKey) (d : Bytes),
      ossMockDownload (ossMockDelete (ossMockUpload m k d) k).2 k = some d) ∧
    (∀ (w : List String) (b : BucketState) (k : ObjKey) (d : Bytes),
      ossClientDownload w (ossClientDelete w (ossClientUpload w b k d) k).2 k = some d) := by
  refine ⟨fun m k => rfl, fun w b k => rfl, ?_, ?_⟩
  · intro m k d
    simp only [ossMockDelete, ossMockDownload, ossMockUpload]
    rw [find?_assoc_update]
    rfl
  · intro w b k d
    simp only [ossClientDelete, ossClientDownload, ossClientUpload]
    rw [find?_assoc_update]
    rfl

theorem deleteLocalFile_security (workingDir : List String) (fs : AbsFS) (rp : GoPath)
    (h : startsDotDot (relSegs (cleanSegs true workingDir) (joinPath workingDir rp)) = true) :
    DeleteLocalFile workingDir fs rp = .error .securityError := by
  simp [DeleteLocalFile, h]

theorem deleteLocalFile_not_security (workingDir : List String) (fs : AbsFS) (rp : GoPath)
    (h : startsDotDot (relSegs (cleanSegs true workingDir) (joinPath workingDir rp)) = false) :
    DeleteLocalFile workingDir fs rp ≠ .error .securityError := by
  simp only [DeleteLocalFile, h, Bool.false_eq_true, if_false]
  cases osRemove fs (joinPath workingDir rp) with
  | some fs2 => simp
  | none => simp

/-- C2 counterexample: the absolute path `/etc/passwd` lies outside the
working root `/work`, yet `DeleteLocalFile` joins it beneath the root and
successfully removes `/work/etc/passwd` — it returns `ok` (not a
SecurityError) and mutates the filesystem. -/
theorem delete_absolute_counterexample :
    DeleteLocalFile [segWork] [([segWork, segEtc, segPasswd], [1])]
      ⟨true, [segEtc, segPasswd]⟩ = .ok [] := rfl

/-- C2 amended: a relativePath whose joined-and-cleaned resolution escapes
the working root (such as `../outside.txt`) fails with SecurityError and
performs no filesystem mutation, but an absolute relativePath is joined
beneath the working root rather than compared against it, so it never
produces a SecurityError — for `/etc/passwd` the code deletes
`workingDir/etc/passwd` when present. -/
theorem delete_guard_behaviour :
    (∀ (workingDir : List String) (fs : AbsFS) (rp : GoPath),
      startsDotDot (relSegs (cleanSegs true workingDir) (joinPath workingDir rp)) = true →
      DeleteLocalFile workingDir fs rp = .error .securityError) ∧
    (∀ fs : AbsFS,
      DeleteLocalFile [segWork] fs ⟨false, [dotdotSeg, segOutside]⟩ = .error .securityError) ∧
    (∀ fs : AbsFS,
      DeleteLocalFile [segWork] fs ⟨true, [segEtc, segPasswd]⟩ ≠ .error .securityError) :=
  ⟨deleteLocalFile_security,
   fun fs => deleteLocalFile_security [segWork] fs ⟨false, [dotdotSeg, segOutside]⟩ (by decide),
   fun fs => deleteLocalFile_not_security [segWork] fs ⟨true, [segEtc, segPasswd]⟩ (by decide)⟩

/-- Witness for C2's amended theorem: the traversal path `../outside.txt`
is rejected with a SecurityError on a concrete filesystem. -/
theorem delete_guard_behaviour_witness :
    DeleteLocalFile [segWork] [([segWork, segA], [5])] ⟨false, [dotdotSeg, segOutside]⟩ =
      .error .securityError :=
  delete_guard_behaviour.2.1 [([segWork, segA], [5])]

theorem syncDownloadLoop_ok_of_no_cancel (key : Bytes) (ctx : Nat → Bool) (store : Store)
    (localSet : List String) (h : ∀ i, ctx i = false) (remote : List ObjKey) (i : Nat)
    (fs : LocalFS) : (syncDownloadLoop key ctx store localSet i remote fs).1 = .ok () := by
  induction remote generalizing i fs with
  | nil => rfl
  | cons k rest ih =>
    simp only [syncDownloadLoop]
    rw [if_neg (by simp [h i])]
    by_cases hc : localSet.contains (k.headD emptySeg)
    · rw [if_pos hc]
      exact ih (i + 1) fs
    · rw [if_neg hc]
      cases hdl : DownloadAndDecryptFile key store fs k with
      | ok fs2 => exact ih (i + 1) fs2
      | error e => exact ih (i + 1) fs

theorem syncUploadLoop_ok_of_no_cancel (key : Bytes) (ctx : Nat → Bool) (rnd : Nat → Bytes)
    (fs : LocalFS) (remoteSet : List ObjKey) (h : ∀ i, ctx i = false)
    (entries : List WalkEntry) (i : Nat) (st : Store) :
    (syncUploadLoop key ctx rnd fs remoteSet i entries st).1 = .ok () := by
  induction entries generalizing i st with
  | nil => rfl
  | cons entry rest ih =>
    simp only [syncUploadLoop]
    rw [if_neg (by simp [h i])]
    by_cases hd : entry.2
    · rw [if_pos hd]
      exact ih (i + 1) st
    · rw [if_neg hd]
      by_cases hc : remoteSet.contains entry.1
      · rw [if_pos hc]
        exact ih (i + 1) st
      · rw [if_neg hc]
        cases hup : EncryptAndUploadFile key (rnd i) st fs entry.1 with
        | ok st2 => exact ih (i + 1) st2
        | error e => exact ih (i + 1) st

/-- C5: in both batch reconciliations a single key's failure is recorded
in the failure log and the loop continues with the remaining keys, while
context cancellation — polled before each key — terminates the batch
early and is returned as the operation's error; when the context never
fires, the batch always completes with ok. -/
theorem sync_fail_soft :
    (∀ (key : Bytes) (ctx : Nat → Bool) (store : Store) (fs : LocalFS),
      (∀ i, ctx i = false) → (SyncDownload key ctx store fs).1 = .ok ()) ∧
    (∀ (key : Bytes) (ctx : Nat → Bool) (rnd : Nat → Bytes) (store : Store) (fs : LocalFS),
      (∀ i, ctx i = false) → (SyncUpload key ctx rnd store fs).1 = .ok ()) ∧
    (∀ (key : Bytes) (ctx : Nat → Bool) (store : Store) (localSet : List String) (i : Nat)
      (k : ObjKey) (rest : List ObjKey) (fs : LocalFS), ctx i = true →
      syncDownloadLoop key ctx store localSet i (k :: rest) fs = (.error .cancelled, fs, [])) ∧
    (∀ (key : Bytes) (ctx : Nat → Bool) (rnd : Nat → Bytes) (fs : LocalFS)
      (remoteSet : List ObjKey) (i : Nat) (entry : WalkEntry) (rest : List WalkEntry)
      (st : Store), ctx i = true →
      syncUploadLoop key ctx rnd fs remoteSet i (entry :: rest) st = (.error .cancelled, st, [])) ∧
    (∀ (key : Bytes) (ctx : Nat → Bool) (store : Store) (localSet : List String) (i : Nat)
      (k : ObjKey) (rest : List ObjKey) (fs : LocalFS) (e : FileError), ctx i = false →
      localSet.contains (k.headD emptySeg) = false →
      DownloadAndDecryptFile key store fs k = .error e →
      syncDownloadLoop key ctx store localSet i (k :: rest) fs =
        ((syncDownloadLoop key ctx store localSet (i + 1) rest fs).1,
         (syncDownloadLoop key ctx store localSet (i + 1) rest fs).2.1,
         k :: (syncDownloadLoop key ctx store localSet (i + 1) rest fs).2.2)) ∧
    (∀ (key : Bytes) (ctx : Nat → Bool) (rnd : Nat → Bytes) (fs : LocalFS)
      (remoteSet : List ObjKey) (i : Nat) (k : ObjKey) (rest : List WalkEntry) (st : Store)
      (e : FileError), ctx i = false → remoteSet.contains k = false →
      EncryptAndUploadFile key (rnd i) st fs k = .error e →
      syncUploadLoop key ctx rnd fs remoteSet i ((k, false) :: rest) st =
        ((syncUploadLoop key ctx rnd fs remoteSet (i + 1) rest st).1,
         (syncUploadLoop key ctx rnd fs remoteSet (i + 1) rest st).2.1,
         k :: (syncUploadLoop key ctx rnd fs remoteSet (i + 1) rest st).2.2)) := by
  refine ⟨?_, ?_, ?_, ?_, ?_, ?_⟩
  · intro key ctx store fs h
    exact syncDownloadLoop_ok_of_no_cancel key ctx store (dirListTop fs) h (storeList store) 0 fs
  · intro key ctx rnd store fs h
    exact syncUploadLoop_ok_of_no_cancel key ctx rnd fs (remoteSetWithTops store) h
      (walkEntries fs) 0 store
  · intro key ctx store localSet i k rest fs h
    simp only [syncDownloadLoop]
    rw [if_pos h]
  · intro key ctx rnd fs remoteSet i entry rest st h
    simp only [syncUploadLoop]
    rw [if_pos h]
  · intro key ctx store localSet i k rest fs e hctx hloc hdl
    simp only [syncDownloadLoop]
    rw [if_neg (by simp [hctx]),
      if_neg (fun hh => by rw [hloc] at hh; exact Bool.noConfusion hh), hdl]
  · intro key ctx rnd fs remoteSet i k rest st e hctx hrem hup
    simp only [syncUploadLoop]
    rw [if_neg (by simp [hctx])]
    rw [if_neg (by simp)]
    rw [if_neg (fun hh => by rw [hrem] at hh; exact Bool.noConfusion hh), hup]

/-- Witness for C5: with a never-fired context both batch loops finish
with ok on concrete inputs. -/
theorem sync_fail_soft_witness :
    (SyncDownload (NewAESGCM pwA) (fun _ => false)
      ⟨[([segA], [0])], fun _ => false, fun _ => false⟩ [([segB], [1])]).1 = .ok () ∧
    (SyncUpload (NewAESGCM pwA) (fun _ => false) (fun _ => List.replicate 12 0)
      ⟨[([segA], [0])], fun _ => false, fun _ => false⟩ [([segB], [1])]).1 = .ok () :=
  ⟨sync_fail_soft.1 (NewAESGCM pwA) (fun _ => false)
      ⟨[([segA], [0])], fun _ => false, fun _ => false⟩ [([segB], [1])] (fun _ => rfl),
   sync_fail_soft.2.1 (NewAESGCM pwA) (fun _ => false) (fun _ => List.replicate 12 0)
      ⟨[([segA], [0])], fun _ => false, fun _ => false⟩ [([segB], [1])] (fun _ => rfl)⟩

/-- C6: EncryptAndUploadDirectory is fail-fast — the context is polled
before each visited entry and a cancelled context aborts the walk with a
cancellation error, a context cancelled before the walk begins performs
zero uploads, and the first per-file error aborts the whole walk and is
returned to the caller. -/
theorem uploadDirectory_fail_fast :
    (∀ (key : Bytes) (ctx : Nat → Bool) (rnd : Nat → Bytes) (store : Store) (fs : LocalFS),
      ctx 0 = true →
      EncryptAndUploadDirectory key ctx rnd store fs = (.error .cancelled, store)) ∧
    (∀ (key : Bytes) (ctx : Nat → Bool) (rnd : Nat → Bytes) (fs : LocalFS) (i : Nat)
      (entry : WalkEntry) (rest : List WalkEntry) (st : Store), ctx i = true →
      EncryptAndUploadDirectoryLoop key ctx rnd fs i (entry :: rest) st =
        (.error .cancelled, st)) ∧
    (∀ (key : Bytes) (ctx : Nat → Bool) (rnd : Nat → Bytes) (fs : LocalFS) (i : Nat)
      (p : ObjKey) (rest : List WalkEntry) (st : Store) (e : FileError), ctx i = false →
      EncryptAndUploadFile key (rnd i) st fs p = .error e →
      EncryptAndUploadDirectoryLoop key ctx rnd fs i ((p, false) :: rest) st =
        (.error (.fileError e), st)) ∧
    (∀ (key : Bytes) (ctx : Nat → Bool) (rnd : Nat → Bytes) (fs : LocalFS) (i : Nat)
      (p : ObjKey) (rest : List WalkEntry) (st st2 : Store), ctx i = false →
      EncryptAndUploadFile key (rnd i) st fs p = .ok st2 →
      EncryptAndUploadDirectoryLoop key ctx rnd fs i ((p, false) :: rest) st =
        EncryptAndUploadDirectoryLoop key ctx rnd fs (i + 1) rest st2) := by
  refine ⟨?_, ?_, ?_, ?_⟩
  · intro key ctx rnd store fs h
    simp only [EncryptAndUploadDirectory, walkEntries, EncryptAndUploadDirectoryLoop]
    rw [if_pos h]
  · intro key ctx rnd fs i entry rest st h
    simp only [EncryptAndUploadDirectoryLoop]
    rw [if_pos h]
  · intro key ctx rnd fs i p rest st e hctx hup
    simp only [EncryptAndUploadDirectoryLoop]
    rw [if_neg (by simp [hctx]), if_neg (by simp), hup]
  · intro key ctx rnd fs i p rest st st2 hctx hup
    simp only [EncryptAndUploadDirectoryLoop]
    rw [if_neg (by simp [hctx]), if_neg (by simp), hup]

/-- Witness for C6: a context cancelled before the walk begins yields the
cancellation error and leaves the concrete store untouched. -/
theorem uploadDirectory_fail_fast_witness :
    EncryptAndUploadDirectory (NewAESGCM pwA) (fun _ => true) (fun _ => List.replicate 12 0)
      ⟨[], fun _ => false, fun _ => false⟩ [([segA], [1])] =
      (.error .cancelled, ⟨[], fun _ => false, fun _ => false⟩) :=
  uploadDirectory_fail_fast.1 (NewAESGCM pwA) (fun _ => true) (fun _ => List.replicate 12 0)
    ⟨[], fun _ => false, fun _ => false⟩ [([segA], [1])] rfl

theorem mem_keys_update (l : List (ObjKey × Bytes)) (k : ObjKey) (v : Bytes) (x : ObjKey) :
    x ∈ (l.filter (fun e => !(e.1 == k)) ++ [(k, v)]).map Prod.fst ↔
      x = k ∨ x ∈ l.map Prod.fst := by
  simp only [List.map_append, List.mem_append, List.mem_map, List.mem_filter]
  constructor
  · rintro (⟨e, ⟨he, hf⟩, rfl⟩ | h)
    · exact Or.inr ⟨e, he, rfl⟩
    · obtain ⟨a, ha, hax⟩ := h
      simp only [List.mem_singleton] at ha
      subst ha
      exact Or.inl hax.symm
  · rintro (rfl | ⟨e, he, rfl⟩)
    · right
      simp
    · by_cases hek : e.1 = k
      · right
        simp [hek]
      · left
        exact ⟨e, ⟨he, by simp [hek]⟩, rfl⟩

theorem find?_filter_ne (l : List (ObjKey × Bytes)) (k x : ObjKey) (h : x ≠ k) :
    (l.filter (fun e => !(e.1 == k))).find? (fun e => e.1 == x) =
      l.find? (fun e => e.1 == x) := by
  induction l with
  | nil => rfl
  | cons a as ih =>
    by_cases hak : a.1 = k
    · have h2 : (a.1 == k) = true := by simp [hak]
      have h1 : (a.1 == x) = false := by
        simp only [beq_eq_false_iff_ne]
        rw [hak]
        exact fun hh => h hh.symm
      simp only [List.filter, List.find?, h2, Bool.not_true, h1, ih]
    · have h2 : (a.1 == k) = false := by simp [hak]
      simp only [List.filter, h2, Bool.not_false]
      by_cases hax : a.1 = x
      · have h1 : (a.1 == x) = true := by simp [hax]
        simp only [List.find?, h1]
      · have h1 : (a.1 == x) = false := by simp [hax]
        simp only [List.find?, h1, ih]

theorem lookup_update_ne (l : List (ObjKey × Bytes)) (k : ObjKey) (v : Bytes) (x : ObjKey)
    (h : x ≠ k) :
    (l.filter (fun e => !(e.1 == k)) ++ [(k, v)]).find? (fun e => e.1 == x) =
      l.find? (fun e => e.1 == x) := by
  rw [List.find?_append, find?_filter_ne l k x h]
  cases hf : l.find? (fun e => e.1 == x) with
  | some e => rfl
  | none =>
    have h2 : (k == x) = false := by
      simp only [beq_eq_false_iff_ne]
      exact fun hh => h hh.symm
    show ([(k, v)].find? (fun e => e.1 == x)) = none
    simp only [List.find?, h2]

theorem fsRead_isSome_of_mem (fs : LocalFS) (x : ObjKey) (h : x ∈ fs.map Prod.fst) :
    ∃ d, fsRead fs x = some d := by
  obtain ⟨e, he, hex⟩ := List.mem_map.mp h
  have hsome : (fs.find? (fun e => e.1 == x)).isSome :=
    List.find?_isSome.mpr ⟨e, he, by simp [hex]⟩
  obtain ⟨e0, hf⟩ := Option.isSome_iff_exists.mp hsome
  exact ⟨e0.2, by simp [fsRead, hf]⟩

theorem downloadAndDecrypt_ok (key : Bytes) (store : Store) (fs : LocalFS) (k : ObjKey)
    (hfail : store.failDownload k = false) (hk : k ∈ storeList store)
    (hvalid : ∀ e ∈ store.objects, (Decrypt key e.2).isSome) :
    ∃ p, DownloadAndDecryptFile key store fs k = .ok (fsWrite fs k p) := by
  obtain ⟨e, he, hex⟩ := List.mem_map.mp hk
  have hsome : (store.objects.find? (fun e => e.1 == k)).isSome :=
    List.find?_isSome.mpr ⟨e, he, by simp [hex]⟩
  obtain ⟨e0, hf⟩ := Option.isSome_iff_exists.mp hsome
  have he0 : e0 ∈ store.objects := List.mem_of_find?_eq_some hf
  have hsd : storeDownload store k = some e0.2 := by
    unfold storeDownload
    rw [if_neg (by simp [hfail]), hf]
    rfl
  obtain ⟨p, hp⟩ := Option.isSome_iff_exists.mp (hvalid e0 he0)
  refine ⟨p, ?_⟩
  unfold DownloadAndDecryptFile
  simp only [hsd, hp]

theorem encryptAndUploadFile_ok (key nonce : Bytes) (st : Store) (fs : LocalFS) (p : ObjKey)
    (hf : st.failUpload p = false) (hp : p ∈ fs.map Prod.fst) :
    ∃ d, EncryptAndUploadFile key nonce st fs p =
      .ok { st with objects := st.objects.filter (fun e => !(e.1 == p)) ++
        [(p, Encrypt key nonce d)] } := by
  obtain ⟨d, hread⟩ := fsRead_isSome_of_mem fs p hp
  refine ⟨d, ?_⟩
  unfold EncryptAndUploadFile storeUpload
  simp only [hread, hf, Bool.false_eq_true, if_false]

theorem mem_keys_fsWrite (fs : LocalFS) (k : ObjKey) (v : Bytes) (x : ObjKey) :
    x ∈ (fsWrite fs k v).map Prod.fst ↔ x = k ∨ x ∈ fs.map Prod.fst :=
  mem_keys_update fs k v x

theorem fsRead_fsWrite_ne (fs : LocalFS) (k : ObjKey) (v : Bytes) (x : ObjKey) (h : x ≠ k) :
    fsRead (fsWrite fs k v) x = fsRead fs x := by
  simp only [fsRead, fsWrite]
  rw [lookup_update_ne fs k v x h]

theorem syncDownloadFullLoop_keys (key : Bytes) (ctx : Nat → Bool) (store : Store)
    (localKeys : List ObjKey) (hctx : ∀ i, ctx i = false)
    (hfail : ∀ k, store.failDownload k = false)
    (hvalid : ∀ e ∈ store.objects, (Decrypt key e.2).isSome)
    (remote : List ObjKey) :
    ∀ (i : Nat) (fs : LocalFS), (∀ k ∈ remote, k ∈ storeList store) →
      ∀ x, (x ∈ (syncDownloadFullLoop key ctx store localKeys i remote fs).2.1.map Prod.fst ↔
        (x ∈ fs.map Prod.fst ∨ (x ∈ remote ∧ x ∉ localKeys))) := by
  induction remote with
  | nil =>
    intro i fs hsub x
    simp [syncDownloadFullLoop]
  | cons k rest ih =>
    intro i fs hsub x
    have hsub2 : ∀ k2 ∈ rest, k2 ∈ storeList store :=
      fun k2 hk2 => hsub k2 (List.mem_cons_of_mem _ hk2)
    simp only [syncDownloadFullLoop]
    rw [if_neg (by simp [hctx i])]
    by_cases hck : k ∈ localKeys
    · rw [if_pos (by simpa using hck)]
      rw [ih (i + 1) fs hsub2 x]
      constructor
      · rintro (h | ⟨h1, h2⟩)
        · exact Or.inl h
        · exact Or.inr ⟨List.mem_cons_of_mem _ h1, h2⟩
      · rintro (h | ⟨h1, h2⟩)
        · exact Or.inl h
        · rcases List.mem_cons.mp h1 with rfl | h1
          · exact absurd hck h2
          · exact Or.inr ⟨h1, h2⟩
    · rw [if_neg (by simpa using hck)]
      obtain ⟨p, hdl⟩ := downloadAndDecrypt_ok key store fs k (hfail k)
        (hsub k (List.mem_cons_self _ _)) hvalid
      simp only [hdl]
      rw [ih (i + 1) (fsWrite fs k p) hsub2 x, mem_keys_fsWrite]
      constructor
      · rintro ((rfl | h) | ⟨h1, h2⟩)
        · exact Or.inr ⟨List.mem_cons_self _ _, hck⟩
        · exact Or.inl h
        · exact Or.inr ⟨List.mem_cons_of_mem _ h1, h2⟩
      · rintro (h | ⟨h1, h2⟩)
        · exact Or.inl (Or.inr h)
        · rcases List.mem_cons.mp h1 with rfl | h1
          · exact Or.inl (Or.inl rfl)
          · exact Or.inr ⟨h1, h2⟩

theorem syncDownloadFullLoop_preserves (key : Bytes) (ctx : Nat → Bool) (store : Store)
    (localKeys : List ObjKey) (hctx : ∀ i, ctx i = false)
    (hfail : ∀ k, store.failDownload k = false)
    (hvalid : ∀ e ∈ store.objects, (Decrypt key e.2).isSome)
    (remote : List ObjKey) :
    ∀ (i : Nat) (fs : LocalFS), (∀ k ∈ remote, k ∈ storeList store) →
      ∀ x ∈ localKeys,
        fsRead (syncDownloadFullLoop key ctx store localKeys i remote fs).2.1 x = fsRead fs x := by
  induction remote with
  | nil =>
    intro i fs hsub x hx
    rfl
  | cons k rest ih =>
    intro i fs hsub x hx
    have hsub2 : ∀ k2 ∈ rest, k2 ∈ storeList store :=
      fun k2 hk2 => hsub k2 (List.mem_cons_of_mem _ hk2)
    simp only [syncDownloadFullLoop]
    rw [if_neg (by simp [hctx i])]
    by_cases hck : k ∈ localKeys
    · rw [if_pos (by simpa using hck)]
      exact ih (i + 1) fs hsub2 x hx
    · rw [if_neg (by simpa using hck)]
      obtain ⟨p, hdl⟩ := downloadAndDecrypt_ok key store fs k (hfail k)
        (hsub k (List.mem_cons_self _ _)) hvalid
      simp only [hdl]
      rw [ih (i + 1) (fsWrite fs k p) hsub2 x hx]
      exact fsRead_fsWrite_ne fs k p x (fun hkx => hck (hkx ▸ hx))

theorem syncDownloadLoop_keys (key : Bytes) (ctx : Nat → Bool) (store : Store)
    (localSet : List String) (hctx : ∀ i, ctx i = false)
    (hfail : ∀ k, store.failDownload k = false)
    (hvalid : ∀ e ∈ store.objects, (Decrypt key e.2).isSome)
    (remote : List ObjKey) :
    ∀ (i : Nat) (fs : LocalFS), (∀ k ∈ remote, k ∈ storeList store) →
      ∀ x, (x ∈ (syncDownloadLoop key ctx store localSet i remote fs).2.1.map Prod.fst ↔
        (x ∈ fs.map Prod.fst ∨ (x ∈ remote ∧ x.headD emptySeg ∉ localSet))) := by
  induction remote with
  | nil =>
    intro i fs hsub x
    simp [syncDownloadLoop]
  | cons k rest ih =>
    intro i fs hsub x
    have hsub2 : ∀ k2 ∈ rest, k2 ∈ storeList store :=
      fun k2 hk2 => hsub k2 (List.mem_cons_of_mem _ hk2)
    simp only [syncDownloadLoop]
    rw [if_neg (by simp [hctx i])]
    by_cases hck : k.headD emptySeg ∈ localSet
    · rw [if_pos (by simpa using hck)]
      rw [ih (i + 1) fs hsub2 x]
      constructor
      · rintro (h | ⟨h1, h2⟩)
        · exact Or.inl h
        · exact Or.inr ⟨List.mem_cons_of_mem _ h1, h2⟩
      · rintro (h | ⟨h1, h2⟩)
        · exact Or.inl h
        · rcases List.mem_cons.mp h1 with rfl | h1
          · exact absurd hck h2
          · exact Or.inr ⟨h1, h2⟩
    · rw [if_neg (by simpa using hck)]
      obtain ⟨p, hdl⟩ := downloadAndDecrypt_ok key store fs k (hfail k)
        (hsub k (List.mem_cons_self _ _)) hvalid
      simp only [hdl]
      rw [ih (i + 1) (fsWrite fs k p) hsub2 x, mem_keys_fsWrite]
      constructor
      · rintro ((rfl | h) | ⟨h1, h2⟩)
        · exact Or.inr ⟨List.mem_cons_self _ _, hck⟩
        · exact Or.inl h
        · exact Or.inr ⟨List.mem_cons_of_mem _ h1, h2⟩
      · rintro (h | ⟨h1, h2⟩)
        · exact Or.inl (Or.inr h)
        · rcases List.mem_cons.mp h1 with rfl | h1
          · exact Or.inl (Or.inl rfl)
          · exact Or.inr ⟨h1, h2⟩

/-- C1 counterexample: the `pkg/dir/filemanager.go` variant of
`SyncDownload` compares only the top-level segment, so the nested remote
key `dir/b.txt`, whose top-level directory `dir` exists locally while the
full relative path does not, is not downloaded — the run finishes with ok,
the local tree is unchanged, and no failure is even recorded. -/
theorem syncDownload_topLevel_counterexample :
    SyncDownload (NewAESGCM pwA) (fun _ => false)
      ⟨[([segDir, segB], [0])], fun _ => false, fun _ => false⟩ [([segDir, segA], [5])] =
      (.ok (), [([segDir, segA], [5])], []) := rfl

/-- C1 amended: under a quiet context, a failure-free backend and
well-formed blobs, the part_002 variant of SyncDownload downloads a remote
key exactly when its full relative path is absent from the local KeySet
(and leaves a key already present locally untouched), while the
pkg/dir/filemanager.go variant downloads a remote key exactly when its
top-level segment is absent from the one-level local listing — so a
nested remote key whose top-level directory exists locally is downloaded
only by the full-path variant. -/
theorem syncDownload_granularity (key : Bytes) (ctx : Nat → Bool) (store : Store)
    (fs : LocalFS) (hctx : ∀ i, ctx i = false)
    (hfail : ∀ k, store.failDownload k = false)
    (hvalid : ∀ e ∈ store.objects, (Decrypt key e.2).isSome) :
    (∀ x : ObjKey, x ∈ (SyncDownloadFull key ctx store fs).2.1.map Prod.fst ↔
      (x ∈ fs.map Prod.fst ∨ (x ∈ storeList store ∧ x ∉ fs.map Prod.fst))) ∧
    (∀ x : ObjKey, x ∈ fs.map Prod.fst →
      fsRead (SyncDownloadFull key ctx store fs).2.1 x = fsRead fs x) ∧
    (∀ x : ObjKey, x ∈ (SyncDownload key ctx store fs).2.1.map Prod.fst ↔
      (x ∈ fs.map Prod.fst ∨ (x ∈ storeList store ∧ x.headD emptySeg ∉ dirListTop fs))) :=
  ⟨syncDownloadFullLoop_keys key ctx store (fs.map Prod.fst) hctx hfail hvalid
      (storeList store) 0 fs (fun _ hk => hk),
   fun x hx => syncDownloadFullLoop_preserves key ctx store (fs.map Prod.fst) hctx hfail hvalid
      (storeList store) 0 fs (fun _ hk => hk) x hx,
   syncDownloadLoop_keys key ctx store (dirListTop fs) hctx hfail hvalid
      (storeList store) 0 fs (fun _ hk => hk)⟩

/-- Witness for C1's amended theorem: with one local file `a.txt` and one
remote key `b.txt` holding a well-formed blob, the full-path variant's
final local KeySet is characterized as stated at the key `b.txt`. -/
theorem syncDownload_granularity_witness :
    [segB] ∈ (SyncDownloadFull (NewAESGCM pwA) (fun _ => false)
      ⟨[([segB], Encrypt (NewAESGCM pwA) (List.replicate 12 0) [9])],
        fun _ => false, fun _ => false⟩ [([segA], [5])]).2.1.map Prod.fst ↔
      ([segB] ∈ [([segA], [5])].map (Prod.fst (α := ObjKey) (β := Bytes)) ∨
        ([segB] ∈ storeList ⟨[([segB], Encrypt (NewAESGCM pwA) (List.replicate 12 0) [9])],
            fun _ => false, fun _ => false⟩ ∧
          [segB] ∉ [([segA], [5])].map (Prod.fst (α := ObjKey) (β := Bytes)))) :=
  (syncDownload_granularity (NewAESGCM pwA) (fun _ => false)
      ⟨[([segB], Encrypt (NewAESGCM pwA) (List.replicate 12 0) [9])],
        fun _ => false, fun _ => false⟩
      [([segA], [5])] (fun _ => rfl) (fun _ => rfl)
      (by
        intro e he
        rw [List.mem_singleton] at he
        subst he
        rw [decrypt_encrypt (NewAESGCM pwA) (List.replicate 12 0) [9] (by decide)]
        rfl)).1 [segB]

theorem mem_walkEntries (fs : LocalFS) (x : ObjKey) :
    (x, false) ∈ walkEntries fs ↔ x ∈ fs.map Prod.fst := by
  simp [walkEntries]

theorem walkEntries_files (fs : LocalFS) :
    ∀ e ∈ walkEntries fs, e.2 = false → e.1 ∈ fs.map Prod.fst := by
  intro e he hf
  rcases List.mem_cons.mp he with rfl | hm
  · simp at hf
  · obtain ⟨a, ha, rfl⟩ := List.mem_map.mp hm
    exact List.mem_map.mpr ⟨a, ha, rfl⟩

theorem syncUploadLoop_keys (key : Bytes) (ctx : Nat → Bool) (rnd : Nat → Bytes) (fs : LocalFS)
    (remoteSet : List ObjKey) (hctx : ∀ i, ctx i = false) (entries : List WalkEntry) :
    ∀ (i : Nat) (st : Store), (∀ k, st.failUpload k = false) →
      (∀ e ∈ entries, e.2 = false → e.1 ∈ fs.map Prod.fst) →
      ∀ x, (x ∈ (syncUploadLoop key ctx rnd fs remoteSet i entries st).2.1.objects.map Prod.fst ↔
        (x ∈ st.objects.map Prod.fst ∨ ((x, false) ∈ entries ∧ x ∉ remoteSet))) := by
  induction entries with
  | nil =>
    intro i st hfail hent x
    simp [syncUploadLoop]
  | cons entry rest ih =>
    intro i st hfail hent x
    have hent2 : ∀ e ∈ rest, e.2 = false → e.1 ∈ fs.map Prod.fst :=
      fun e he => hent e (List.mem_cons_of_mem _ he)
    obtain ⟨p, d⟩ := entry
    simp only [syncUploadLoop]
    rw [if_neg (by simp [hctx i])]
    cases d with
    | true =>
      rw [if_pos rfl]
      rw [ih (i + 1) st hfail hent2 x]
      constructor
      · rintro (h | ⟨h1, h2⟩)
        · exact Or.inl h
        · exact Or.inr ⟨List.mem_cons_of_mem _ h1, h2⟩
      · rintro (h | ⟨h1, h2⟩)
        · exact Or.inl h
        · rcases List.mem_cons.mp h1 with heq | h1
          · exact absurd heq (by simp)
          · exact Or.inr ⟨h1, h2⟩
    | false =>
      rw [if_neg (by simp)]
      by_cases hrem : p ∈ remoteSet
      · rw [if_pos (by simpa using hrem)]
        rw [ih (i + 1) st hfail hent2 x]
        constructor
        · rintro (h | ⟨h1, h2⟩)
          · exact Or.inl h
          · exact Or.inr ⟨List.mem_cons_of_mem _ h1, h2⟩
        · rintro (h | ⟨h1, h2⟩)
          · exact Or.inl h
          · rcases List.mem_cons.mp h1 with heq | h1
            · rw [Prod.mk.injEq] at heq
              exact absurd (heq.1 ▸ hrem) h2
            · exact Or.inr ⟨h1, h2⟩
      · rw [if_neg (by simpa using hrem)]
        obtain ⟨dd, hup⟩ := encryptAndUploadFile_ok key (rnd i) st fs p (hfail p)
          (hent (p, false) (List.mem_cons_self _ _) rfl)
        simp only [hup]
        rw [ih (i + 1)
          { st with objects := st.objects.filter (fun e => !(e.1 == p)) ++
            [(p, Encrypt key (rnd i) dd)] } hfail hent2 x]
        dsimp only
        rw [mem_keys_update]
        constructor
        · rintro ((rfl | h) | ⟨h1, h2⟩)
          · exact Or.inr ⟨List.mem_cons_self _ _, hrem⟩
          · exact Or.inl h
          · exact Or.inr ⟨List.mem_cons_of_mem _ h1, h2⟩
        · rintro (h | ⟨h1, h2⟩)
          · exact Or.inl (Or.inr h)
          · rcases List.mem_cons.mp h1 with heq | h1
            · rw [Prod.mk.injEq] at heq
              exact Or.inl (Or.inl heq.1)
            · exact Or.inr ⟨h1, h2⟩

theorem syncUploadLoop_preserves (key : Bytes) (ctx : Nat → Bool) (rnd : Nat → Bytes)
    (fs : LocalFS) (remoteSet : List ObjKey) (hctx : ∀ i, ctx i = false)
    (entries : List WalkEntry) :
    ∀ (i : Nat) (st : Store), (∀ k, st.failUpload k = false) →
      (∀ e ∈ entries, e.2 = false → e.1 ∈ fs.map Prod.fst) →
      ∀ x ∈ remoteSet,
        (syncUploadLoop key ctx rnd fs remoteSet i entries st).2.1.objects.find?
            (fun e => e.1 == x) =
          st.objects.find? (fun e => e.1 == x) := by
  induction entries with
  | nil =>
    intro i st hfail hent x hx
    rfl
  | cons entry rest ih =>
    intro i st hfail hent x hx
    have hent2 : ∀ e ∈ rest, e.2 = false → e.1 ∈ fs.map Prod.fst :=
      fun e he => hent e (List.mem_cons_of_mem _ he)
    obtain ⟨p, d⟩ := entry
    simp only [syncUploadLoop]
    rw [if_neg (by simp [hctx i])]
    cases d with
    | true =>
      rw [if_pos rfl]
      exact ih (i + 1) st hfail hent2 x hx
    | false =>
      rw [if_neg (by simp)]
      by_cases hrem : p ∈ remoteSet
      · rw [if_pos (by simpa using hrem)]
        exact ih (i + 1) st hfail hent2 x hx
      · rw [if_neg (by simpa using hrem)]
        obtain ⟨dd, hup⟩ := encryptAndUploadFile_ok key (rnd i) st fs p (hfail p)
          (hent (p, false) (List.mem_cons_self _ _) rfl)
        simp only [hup]
        rw [ih (i + 1)
          { st with objects := st.objects.filter (fun e => !(e.1 == p)) ++
            [(p, Encrypt key (rnd i) dd)] } hfail hent2 x hx]
        dsimp only
        exact lookup_update_ne st.objects p (Encrypt key (rnd i) dd) x
          (fun hxp => hrem (hxp ▸ hx))

/-- C7 counterexample: with the remote KeySet `{a.txt/b}` and the single
local file `a.txt`, the key `a.txt` is absent from `List("")`, yet
`SyncUpload` skips it — the remote set also contains every key's
top-level segment, so nothing is uploaded, refuting the claimed
if-and-only-if at full-key granularity. -/
theorem syncUpload_topLevel_counterexample :
    (SyncUpload (NewAESGCM pwA) (fun _ => false) (fun _ => List.replicate 12 0)
      ⟨[([segA, segSub], [0])], fun _ => false, fun _ => false⟩ [([segA], [1])]).1 = .ok () ∧
    (SyncUpload (NewAESGCM pwA) (fun _ => false) (fun _ => List.replicate 12 0)
      ⟨[([segA, segSub], [0])], fun _ => false, fun _ => false⟩
      [([segA], [1])]).2.1.objects = [([segA, segSub], [0])] ∧
    (SyncUpload (NewAESGCM pwA) (fun _ => false) (fun _ => List.replicate 12 0)
      ⟨[([segA, segSub], [0])], fun _ => false, fun _ => false⟩ [([segA], [1])]).2.2 = [] :=
  ⟨rfl, rfl, rfl⟩

/-- C7 amended: under a quiet context and a failure-free backend,
SyncUpload uploads a local file exactly when its relative slash key is
absent from the remote set that contains every listed key and every
listed key's top-level segment; keys present remotely — in particular
every remote-only key — keep their stored bytes untouched. -/
theorem syncUpload_granularity (key : Bytes) (ctx : Nat → Bool) (rnd : Nat → Bytes)
    (store : Store) (fs : LocalFS) (hctx : ∀ i, ctx i = false)
    (hfail : ∀ k, store.failUpload k = false) :
    (∀ x : ObjKey, x ∈ (SyncUpload key ctx rnd store fs).2.1.objects.map Prod.fst ↔
      (x ∈ storeList store ∨ (x ∈ fs.map Prod.fst ∧ x ∉ remoteSetWithTops store))) ∧
    (∀ x ∈ remoteSetWithTops store,
      (SyncUpload key ctx rnd store fs).2.1.objects.find? (fun e => e.1 == x) =
        store.objects.find? (fun e => e.1 == x)) := by
  constructor
  · intro x
    have h1 := syncUploadLoop_keys key ctx rnd fs (remoteSetWithTops store) hctx
      (walkEntries fs) 0 store hfail (walkEntries_files fs) x
    rw [mem_walkEntries] at h1
    constructor
    · intro h
      rcases (h1.mp h) with h2 | ⟨h2, h3⟩
      · exact Or.inl h2
      · exact Or.inr ⟨h2, h3⟩
    · intro h
      apply h1.mpr
      rcases h with h2 | ⟨h2, h3⟩
      · exact Or.inl h2
      · exact Or.inr ⟨h2, h3⟩
  · intro x hx
    exact syncUploadLoop_preserves key ctx rnd fs (remoteSetWithTops store) hctx
      (walkEntries fs) 0 store hfail (walkEntries_files fs) x hx

/-- Witness for C7's amended theorem at a concrete store and local tree,
evaluated at the key `a.txt`. -/
theorem syncUpload_granularity_witness :
    [segA] ∈ (SyncUpload (NewAESGCM pwA) (fun _ => false) (fun _ => List.replicate 12 0)
      ⟨[([segA, segSub], [0])], fun _ => false, fun _ => false⟩
      [([segA], [1])]).2.1.objects.map Prod.fst ↔
      ([segA] ∈ storeList ⟨[([segA, segSub], [0])], fun _ => false, fun _ => false⟩ ∨
        ([segA] ∈ [([segA], [1])].map (Prod.fst (α := ObjKey) (β := Bytes)) ∧
          [segA] ∉ remoteSetWithTops ⟨[([segA, segSub], [0])], fun _ => false, fun _ => false⟩)) :=
  (syncUpload_granularity (NewAESGCM pwA) (fun _ => false) (fun _ => List.replicate 12 0)
    ⟨[([segA, segSub], [0])], fun _ => false, fun _ => false⟩ [([segA], [1])]
    (fun _ => rfl) (fun _ => rfl)).1 [segA]
